import Mathlib

/-!
Verification development for the IronFlow backward production scheduler
(`src/app.py`).  The scheduling core consists of

  * `work_weekdays_to_weekmask`, `holidays_to_numpy_array`,
    `is_work_day_numpy`   (calendar helpers, app.py lines 144-163),
  * `add_business_days_numpy`  (backward business-day walk, lines 165-188),
  * `calculate_backward_schedule`  (per-block reverse pipeline traversal,
    lines 193-263).

Dates are embedded as integers counting days since 1970-01-01, exactly the
value of numpy's `datetime64[D]`; Python's `date.weekday()` (Monday = 0)
becomes `pyWeekday`.  Python `set`s of holiday dates are embedded as
`List Int`: the source only ever tests membership of the holiday container
(`date_np in holidays`), so a list with the same membership is a faithful
model; `sorted(...)` in `holidays_to_numpy_array` does not affect
membership.  Fallible Python code (the `raise ValueError` in
`add_business_days_numpy`, and the `int(...)` coercion that can raise) is
embedded with `Except String`.
-/

/-- Days-since-epoch for a civil date (proleptic Gregorian), the value of
`numpy.datetime64` at day resolution.  Standard days-from-civil algorithm,
valid for the post-1970 dates used in concrete scenarios. -/
def mkDate (y m d : Nat) : Int :=
  let yAdj := if m ≤ 2 then y - 1 else y
  let era := yAdj / 400
  let yoe := yAdj % 400
  let mp := if m > 2 then m - 3 else m + 9
  let doy := (153 * mp + 2) / 5 + d - 1
  let doe := yoe * 365 + yoe / 4 - yoe / 100 + doy
  (era * 146097 + doe : Int) - 719468

/-- Python `date.weekday()`: Monday = 0 … Sunday = 6.  1970-01-01 was a
Thursday (= 3). -/
def pyWeekday (d : Int) : Int := (d + 3) % 7

/-- A per-team calendar entry of the `team_settings` dictionary
(app.py lines 230-233): the `work_weekdays` list of weekday indices and the
`team_holidays` set (embedded as a list, membership-faithful). -/
structure TeamSetting where
  work_weekdays : List Nat
  team_holidays : List Int
deriving DecidableEq

/-- The fallback used by `team_settings.get(team_code, default)`
(app.py lines 230-233): Monday through Saturday, no team holidays. -/
def defaultTeamSetting : TeamSetting :=
  { work_weekdays := [0, 1, 2, 3, 4, 5], team_holidays := [] }

/-- `work_weekdays_to_weekmask` (app.py lines 144-149): builds the 7-char
'0'/'1' mask, setting position `day` to '1' for each listed weekday. -/
def work_weekdays_to_weekmask (work_weekdays : List Nat) : List Char :=
  work_weekdays.foldl (fun mask day => mask.set day '1') (List.replicate 7 '0')

/-- `holidays_to_numpy_array` (app.py lines 151-156): the union of the
global and the team holiday sets.  Only membership of the result is ever
used, so the list concatenation is a faithful model of
`np.array(sorted(global.union(team)))`. -/
def holidays_to_numpy_array (global_holidays team_holidays : List Int) : List Int :=
  global_holidays ++ team_holidays

/-- `is_work_day_numpy` (app.py lines 158-163): a date is a working day iff
it is not a holiday and its weekday position of the mask is '1'. -/
def is_work_day_numpy (date_np : Int) (weekmask : List Char) (holidays : List Int) : Bool :=
  if holidays.contains date_np then false
  else weekmask.getD (pyWeekday date_np).toNat '0' == '1'

/-- The `while` loop of `add_business_days_numpy` (app.py lines 179-183),
with the remaining iteration budget (`max_iterations - iteration`) as fuel.
State: `current_date`, `days_counted`.  Returns the final `current_date`
together with `iteration >= max_iterations` (the exhaustion flag tested on
line 185).  The loop condition `days_counted < days and iteration <
max_iterations` is mirrored exactly: the fuel-zero base case corresponds to
`iteration == max_iterations`, where the source raises even if the count
was completed on the very last iteration. -/
def walkAux (days : Int) (weekmask : List Char) (holidays : List Int) :
    Int → Int → Nat → Int × Bool
  | current, _, 0 => (current, true)
  | current, counted, fuel + 1 =>
    if counted < days then
      let c := current - 1
      let counted' := if is_work_day_numpy c weekmask holidays then counted + 1 else counted
      walkAux days weekmask holidays c counted' fuel
    else (current, false)

/-- `max_iterations = 365 * 2` (app.py line 176). -/
def max_iterations : Nat := 365 * 2

/-- `add_business_days_numpy` (app.py lines 165-188): walk backward from
`end_date` until `days` working days have been counted; `days == 0` returns
`end_date` unchanged, and exhausting `max_iterations` raises `ValueError`
(embedded as `Except.error`).  A negative `days` never enters the loop body
and returns `end_date` as well, without raising. -/
def add_business_days_numpy (end_date : Int) (days : Int) (work_weekdays : List Nat)
    (global_holidays team_holidays : List Int) : Except String Int :=
  if days = 0 then .ok end_date
  else
    let weekmask := work_weekdays_to_weekmask work_weekdays
    let holidays := holidays_to_numpy_array global_holidays team_holidays
    match walkAux days weekmask holidays end_date 0 max_iterations with
    | (_, true) => .error "작업일을 찾을 수 없습니다. 날짜 범위를 확인하세요."
    | (c, false) => .ok c

/-!
## The scheduling engine

`calculate_backward_schedule` (app.py lines 193-263) iterates the block
rows; for each row it reads the deadline `final_date` from the
`납기일(Final_Date)` column, sorts the pipeline by `Order`, reverses it and
walks it, threading `current_reference_date` and writing date cells
(`df.at[idx, …]`).  The embedding keeps one chunk of written `(column,
value)` cells per process (`runChunks`); flattening the chunks gives the
write sequence of the source loop in order.
-/

/-- A pipeline row of `processes_df` (one record of
`processes_df.sort_values('Order').to_dict('records')`, app.py line 203).
`type` stays a string because the source branches on the strings
`'Duration'` / `'Milestone'`. -/
structure ProcessDef where
  name : String
  type : String
  order : Int
  team_code : String
deriving DecidableEq

/-- A value found in a `NAME_Days` cell of a block row.  `intCell n`
stands for any Python value whose `int(...)` coercion yields `n` (ints,
floats truncated toward zero, numeric strings); `badCell` for a value on
which `int(...)` raises `ValueError`; `nanCell` for a value caught by
`pd.isna`; `absent` for a column missing from the row. -/
inductive Cell where
  | absent
  | nanCell
  | intCell (n : Int)
  | badCell
deriving DecidableEq

/-- A block row of the input dataframe: the parsed deadline
`pd.to_datetime(row["납기일(Final_Date)"])` and the `NAME_Days` cells. -/
structure Row where
  final_date : Int
  cells : String → Cell

/-- The duration resolution of app.py lines 248-252: a missing or NaN
`NAME_Days` cell silently defaults to 5; otherwise `int(row[days_col])`
is taken, which raises on a non-coercible value. -/
def getDays (row : Row) (process_name : String) : Except String Int :=
  match row.cells (process_name ++ "_Days") with
  | .absent => .ok 5
  | .nanCell => .ok 5
  | .intCell n => .ok n
  | .badCell => .error "invalid literal for int()"

/-- `processes_df.sort_values('Order')` (app.py line 203): a stable sort by
the `Order` column. -/
def sortByOrder (ps : List ProcessDef) : List ProcessDef :=
  ps.insertionSort (fun p q => p.order ≤ q.order)

/-- One iteration of the process loop (app.py lines 214-261) at reference
date `ref`, for the block row `row` whose deadline is `fd`.  Returns the
new `current_reference_date` together with the `(column, value)` cells
written by this iteration, in write order:

  * `'납기'` (Delivery): re-writes the deadline column, reference unchanged;
  * `'PND'`: writes `final_date - 1` (one *calendar* day, no calendar
    logic) and sets the reference to it;
  * Milestone: walks 1 business day back from `ref - 1`;
  * Duration: the end date is `ref - 1`, the start date walks `days`
    business days back from it;
  * any other `type` string matches no branch and writes nothing.

The team-setting locals of lines 230-235 (`team_settings.get(team_code,
default)` and its `work_weekdays` / `team_holidays` fields) are inlined at
their use sites. -/
def stepProcess (fd : Int) (team_settings : String → Option TeamSetting)
    (global_holidays : List Int) (row : Row) (ref : Int) (p : ProcessDef) :
    Except String (Int × List (String × Int)) :=
  if p.name = "납기" then
    .ok (ref, [("납기일(Final_Date)", fd)])
  else if p.name = "PND" then
    let pnd_date := fd - 1
    .ok (pnd_date, [("PND", pnd_date)])
  else if p.type = "Milestone" then
    match add_business_days_numpy (ref - 1) 1
        ((team_settings p.team_code).getD defaultTeamSetting).work_weekdays
        global_holidays
        ((team_settings p.team_code).getD defaultTeamSetting).team_holidays with
    | .error e => .error e
    | .ok milestone_date => .ok (milestone_date, [(p.name ++ "일", milestone_date)])
  else if p.type = "Duration" then
    match getDays row p.name with
    | .error e => .error e
    | .ok days =>
      match add_business_days_numpy (ref - 1) days
          ((team_settings p.team_code).getD defaultTeamSetting).work_weekdays
          global_holidays
          ((team_settings p.team_code).getD defaultTeamSetting).team_holidays with
      | .error e => .error e
      | .ok start_date =>
        .ok (start_date, [(p.name ++ "_Start", start_date), (p.name ++ "_End", ref - 1)])
  else
    .ok (ref, [])

/-- The process loop of app.py lines 214-261 over an already
sorted-and-reversed pipeline, pairing every process with the cells it
wrote. -/
def runChunks (fd : Int) (team_settings : String → Option TeamSetting)
    (global_holidays : List Int) (row : Row) :
    Int → List ProcessDef → Except String (List (ProcessDef × List (String × Int)))
  | _, [] => .ok []
  | ref, p :: ps =>
    match stepProcess fd team_settings global_holidays row ref p with
    | .error e => .error e
    | .ok (ref', ws) =>
      match runChunks fd team_settings global_holidays row ref' ps with
      | .error e => .error e
      | .ok rest => .ok ((p, ws) :: rest)

/-- One outer-loop iteration of `calculate_backward_schedule` (app.py lines
207-261) for the block row `row`: sort the pipeline by `Order`, reverse it,
start the reference at the deadline, and collect all written cells in write
order. -/
def scheduleRow (processes : List ProcessDef) (team_settings : String → Option TeamSetting)
    (global_holidays : List Int) (row : Row) : Except String (List (String × Int)) :=
  match runChunks row.final_date team_settings global_holidays row row.final_date
      ((sortByOrder processes).reverse) with
  | .error e => .error e
  | .ok chunks => .ok (chunks.map Prod.snd).flatten

/-- `calculate_backward_schedule` (app.py lines 193-263): the row loop.
The rows are independent; an exception raised for one row propagates out of
the whole call (the source writes onto a copy of the dataframe — the heap
model below covers that aspect). -/
def calculate_backward_schedule (df : List Row) (processes : List ProcessDef)
    (team_settings : String → Option TeamSetting) (global_holidays : List Int) :
    Except String (List (List (String × Int))) :=
  match df with
  | [] => .ok []
  | row :: rest =>
    match scheduleRow processes team_settings global_holidays row with
    | .error e => .error e
    | .ok ws =>
      match calculate_backward_schedule rest processes team_settings global_holidays with
      | .error e => .error e
      | .ok rests => .ok (ws :: rests)

/-- Last-write-wins cell lookup on a write sequence, the value
`df.at[idx, k]` holds after the writes (keys are unique in every scenario
below, where first = last). -/
def lookupW (ws : List (String × Int)) (k : String) : Option Int :=
  (ws.find? (fun kv => kv.1 == k)).map (·.2)

/-- The effective weekmask of a process: its team's `work_weekdays`
(default Monday-Saturday) as a mask. -/
def effMask (team_settings : String → Option TeamSetting) (p : ProcessDef) : List Char :=
  work_weekdays_to_weekmask ((team_settings p.team_code).getD defaultTeamSetting).work_weekdays

/-- The effective holiday array of a process: global holidays united with
its team's holidays. -/
def effHols (team_settings : String → Option TeamSetting) (global_holidays : List Int)
    (p : ProcessDef) : List Int :=
  holidays_to_numpy_array global_holidays
    ((team_settings p.team_code).getD defaultTeamSetting).team_holidays

/-- The start-boundary date a process's chunk records: `NAME_Start` for a
Duration process, `NAME일` for a Milestone (spec §8 P1). -/
def startBoundary (p : ProcessDef) (ws : List (String × Int)) : Option Int :=
  if p.type = "Duration" then lookupW ws (p.name ++ "_Start")
  else lookupW ws (p.name ++ "일")

/-- The end-boundary date a process's chunk records: `NAME_End` for a
Duration process, `NAME일` for a Milestone (spec §8 P1). -/
def endBoundary (p : ProcessDef) (ws : List (String × Int)) : Option Int :=
  if p.type = "Duration" then lookupW ws (p.name ++ "_End")
  else lookupW ws (p.name ++ "일")

/-!
## Heap-level model for the frame property

`calculate_backward_schedule` receives the caller's blocks dataframe, an
object on the Python heap.  Line 200 (`df = df.copy()`) allocates a fresh
dataframe object, and every `df.at[idx, col] = value` write of lines
221-260 targets that fresh object.  The heap is a list of dataframe
objects; a dataframe object holds, per row, the base input row and the
cells written onto it so far.  `holidays_to_numpy_array`, `sort_values`,
`to_dict` and `dict.get` allocate new objects from their inputs, so the
pipeline dataframe, the team-settings mapping and the holiday sets appear
as read-only pure values.
-/

/-- A dataframe object on the heap: each row carries its input data and
the cells written by `df.at`. -/
def Df := List (Row × List (String × Int))

/-- One `df.at[rowIdx, k] = v` write on a dataframe object. -/
def dfWrite (df : Df) (rowIdx : Nat) (k : String) (v : Int) : Df :=
  match df.get? rowIdx with
  | some rw => df.set rowIdx (rw.1, rw.2 ++ [(k, v)])
  | none => df

/-- All cell writes `calculate_backward_schedule` performs on the copy, as
`(row index, column, value)` triples in write order. -/
def dfAllWrites (df : Df) (processes : List ProcessDef)
    (ts : String → Option TeamSetting) (gh : List Int) : List (Nat × String × Int) :=
  (df.enum.map (fun p =>
    match scheduleRow processes ts gh p.2.1 with
    | .ok ws => ws.map (fun kv => (p.1, kv.1, kv.2))
    | .error _ => [])).flatten

/-- A write through heap handle `j`. -/
def heapWrite (heap : List Df) (j : Nat) (w : Nat × String × Int) : List Df :=
  match heap.get? j with
  | some df => heap.set j (dfWrite df w.1 w.2.1 w.2.2)
  | none => heap

/-- The heap-level embedding of `calculate_backward_schedule` applied to
the dataframe object at handle `i`: `df = df.copy()` (app.py line 200)
allocates a fresh object, and all writes go through the fresh handle.
Returns the new heap and the handle of the result. -/
def calculate_backward_schedule_heap (heap : List Df) (i : Nat)
    (processes : List ProcessDef) (ts : String → Option TeamSetting) (gh : List Int) :
    List Df × Nat :=
  let df := heap.getD i []
  let j := heap.length
  let heap1 := heap ++ [df]
  ((dfAllWrites df processes ts gh).foldl (fun h w => heapWrite h j w) heap1, j)

instance : IsTotal ProcessDef (fun p q => p.order ≤ q.order) :=
  ⟨fun a b => Int.le_total a.order b.order⟩

instance : IsTrans ProcessDef (fun p q => p.order ≤ q.order) :=
  ⟨fun _ _ _ hab hbc => le_trans hab hbc⟩


/-!
## Concrete scenarios (used by witnesses and counterexamples)

Dates: 2026-04-30 is a Thursday, 2026-05-04 a Monday, 2026-04-26 and
2026-05-03 are Sundays.
-/

/-- Scenario A of the spec (§8): Cutting (Duration, team `cutting`),
Final (Milestone, team `final`), the PND sentinel, and the terminal
`납기` (Delivery) anchor. -/
def scenarioACutting : ProcessDef :=
  { name := "Cutting", type := "Duration", order := 1, team_code := "cutting" }

def scenarioAFinal : ProcessDef :=
  { name := "Final", type := "Milestone", order := 2, team_code := "final" }

def scenarioAPND : ProcessDef :=
  { name := "PND", type := "Milestone", order := 3, team_code := "pnd" }

def scenarioADelivery : ProcessDef :=
  { name := "납기", type := "Milestone", order := 4, team_code := "final" }

def scenarioAPipeline : List ProcessDef :=
  [scenarioACutting, scenarioAFinal, scenarioAPND, scenarioADelivery]

/-- Only team `cutting` is configured (Monday-Saturday, no holidays); every
other team code falls back to the default calendar. -/
def scenarioATeams : String → Option TeamSetting := fun c =>
  if c = "cutting" then some { work_weekdays := [0, 1, 2, 3, 4, 5], team_holidays := [] }
  else none

def scenarioARow : Row :=
  { final_date := mkDate 2026 4 30,
    cells := fun c => if c = "Cutting_Days" then .intCell 3 else .absent }

/-- The chunks the engine computes for scenario A (checked by `rfl` in the
theorems below). -/
def scenarioAChunks : List (ProcessDef × List (String × Int)) :=
  [ (scenarioADelivery, [("납기일(Final_Date)", mkDate 2026 4 30)]),
    (scenarioAPND, [("PND", mkDate 2026 4 29)]),
    (scenarioAFinal, [("Final일", mkDate 2026 4 27)]),
    (scenarioACutting, [("Cutting_Start", mkDate 2026 4 23), ("Cutting_End", mkDate 2026 4 26)]) ]

/-- Two Duration processes, the second with a zero-day duration; deadline
Monday 2026-05-04, so both naive end dates land next to a Sunday. -/
def nwA : ProcessDef := { name := "A", type := "Duration", order := 1, team_code := "t" }

def nwB : ProcessDef := { name := "B", type := "Duration", order := 2, team_code := "t" }

def nwDelivery : ProcessDef := { name := "납기", type := "Milestone", order := 3, team_code := "f" }

def nwPipeline : List ProcessDef := [nwA, nwB, nwDelivery]

def nwRow : Row :=
  { final_date := mkDate 2026 5 4,
    cells := fun c => if c = "A_Days" then .intCell 3
             else if c = "B_Days" then .intCell 0 else .absent }

/-- A pipeline with the PND sentinel strictly between two Duration
processes (orders 1 < 2 < 3). -/
def pmA : ProcessDef := { name := "A", type := "Duration", order := 1, team_code := "t" }

def pmPND : ProcessDef := { name := "PND", type := "Milestone", order := 2, team_code := "pnd" }

def pmB : ProcessDef := { name := "B", type := "Duration", order := 3, team_code := "t" }

def pmDelivery : ProcessDef := { name := "납기", type := "Milestone", order := 4, team_code := "f" }

def pmPipeline : List ProcessDef := [pmA, pmPND, pmB, pmDelivery]

def pmRow : Row :=
  { final_date := mkDate 2026 4 30,
    cells := fun c => if c = "A_Days" then .intCell 1
             else if c = "B_Days" then .intCell 3 else .absent }

/-- The chunks the engine computes for the PND-in-the-middle pipeline:
the PND step resets the reference to deadline − 1, so A is scheduled after
B starts. -/
def pmChunks : List (ProcessDef × List (String × Int)) :=
  [ (pmDelivery, [("납기일(Final_Date)", mkDate 2026 4 30)]),
    (pmB, [("B_Start", mkDate 2026 4 25), ("B_End", mkDate 2026 4 29)]),
    (pmPND, [("PND", mkDate 2026 4 29)]),
    (pmA, [("A_Start", mkDate 2026 4 27), ("A_End", mkDate 2026 4 28)]) ]

/-- A one-Duration pipeline used by the holiday-on-end, batch and heap
scenarios. -/
def sdA : ProcessDef := { name := "A", type := "Duration", order := 1, team_code := "t" }

def sdDelivery : ProcessDef := { name := "납기", type := "Milestone", order := 2, team_code := "f" }

def sdPipeline : List ProcessDef := [sdA, sdDelivery]

def sdRow : Row :=
  { final_date := mkDate 2026 5 4,
    cells := fun c => if c = "A_Days" then .intCell 3 else .absent }

def sdRowDefaultDays : Row := { final_date := mkDate 2026 4 30, cells := fun _ => .absent }

def sdRowBadDays : Row :=
  { final_date := mkDate 2026 4 30,
    cells := fun c => if c = "A_Days" then .badCell else .absent }

/-- A row exercising all four kinds of days cell. -/
def mixedRow : Row :=
  { final_date := mkDate 2026 4 30,
    cells := fun c => if c = "A_Days" then .badCell else if c = "B_Days" then .nanCell
             else if c = "C_Days" then .intCell 7 else .absent }

/-- A Duration process whose days cell coerces to 0. -/
def c9Proc : ProcessDef := { name := "Z", type := "Duration", order := 1, team_code := "t" }

def c9Row : Row :=
  { final_date := mkDate 2026 4 30,
    cells := fun c => if c = "Z_Days" then .intCell 0 else .absent }

def c10Heap : List Df := [[(sdRow, [])]]


/-!
## Lemmas about the business-day walk
-/

theorem walkAux_fst_le (days : Int) (wm : List Char) (hol : List Int) :
    ∀ (fuel : Nat) (current counted : Int),
      (walkAux days wm hol current counted fuel).1 ≤ current := by
  intro fuel
  induction fuel with
  | zero => intro current counted; simp [walkAux]
  | succ n ih =>
    intro current counted
    simp only [walkAux]
    by_cases h : counted < days
    · rw [if_pos h]
      have := ih (current - 1)
        (if is_work_day_numpy (current - 1) wm hol then counted + 1 else counted)
      omega
    · rw [if_neg h]

theorem walkAux_fst_ge (days : Int) (wm : List Char) (hol : List Int) :
    ∀ (fuel : Nat) (current counted : Int),
      current - fuel ≤ (walkAux days wm hol current counted fuel).1 := by
  intro fuel
  induction fuel with
  | zero => intro current counted; simp [walkAux]
  | succ n ih =>
    intro current counted
    simp only [walkAux]
    by_cases h : counted < days
    · rw [if_pos h]
      have := ih (current - 1)
        (if is_work_day_numpy (current - 1) wm hol then counted + 1 else counted)
      push_cast
      push_cast at this
      omega
    · rw [if_neg h]; push_cast; omega

theorem walkAux_done (days : Int) (wm : List Char) (hol : List Int)
    (current counted : Int) (fuel : Nat) (h : ¬counted < days) :
    walkAux days wm hol current counted (fuel + 1) = (current, false) := by
  simp only [walkAux]
  rw [if_neg h]

theorem walkAux_fst_of_done (days : Int) (wm : List Char) (hol : List Int)
    {current counted : Int} {fuel : Nat} {c : Int} (h : ¬counted < days)
    (heq : walkAux days wm hol current counted fuel = (c, false)) : c = current := by
  cases fuel with
  | zero => simp [walkAux] at heq
  | succ n => rw [walkAux_done days wm hol current counted n h] at heq; exact (Prod.mk.injEq _ _ _ _ ▸ heq).1.symm

theorem walkAux_isWork_of_false (days : Int) (wm : List Char) (hol : List Int) :
    ∀ (fuel : Nat) (current counted : Int) (c : Int), counted < days →
      walkAux days wm hol current counted fuel = (c, false) →
      is_work_day_numpy c wm hol = true := by
  intro fuel
  induction fuel with
  | zero => intro current counted c _ heq; simp [walkAux] at heq
  | succ n ih =>
    intro current counted c h heq
    rw [show walkAux days wm hol current counted (n + 1) =
        walkAux days wm hol (current - 1)
          (if is_work_day_numpy (current - 1) wm hol then counted + 1 else counted) n by
      simp only [walkAux]; rw [if_pos h]] at heq
    by_cases hw : is_work_day_numpy (current - 1) wm hol
    · rw [if_pos hw] at heq
      by_cases h2 : counted + 1 < days
      · exact ih _ _ _ h2 heq
      · have := walkAux_fst_of_done days wm hol h2 heq
        rw [this]; exact hw
    · rw [if_neg hw] at heq
      exact ih _ _ _ h heq

theorem walkAux_fst_le_sub_one (days : Int) (wm : List Char) (hol : List Int)
    {fuel : Nat} {current counted : Int} {c : Int} (h : counted < days)
    (heq : walkAux days wm hol current counted fuel = (c, false)) : c ≤ current - 1 := by
  cases fuel with
  | zero => simp [walkAux] at heq
  | succ n =>
    rw [show walkAux days wm hol current counted (n + 1) =
        walkAux days wm hol (current - 1)
          (if is_work_day_numpy (current - 1) wm hol then counted + 1 else counted) n by
      simp only [walkAux]; rw [if_pos h]] at heq
    have := walkAux_fst_le days wm hol n (current - 1)
      (if is_work_day_numpy (current - 1) wm hol then counted + 1 else counted)
    rw [heq] at this
    exact this

theorem is_work_day_cons_ne (d e : Int) (wm : List Char) (hol : List Int) (h : d ≠ e) :
    is_work_day_numpy d wm (e :: hol) = is_work_day_numpy d wm hol := by
  simp only [is_work_day_numpy, List.contains_cons]
  rw [show (d == e) = false from beq_eq_false_iff_ne.mpr h]
  simp

theorem walkAux_cons_holiday (days : Int) (wm : List Char) (e : Int) (hol : List Int) :
    ∀ (fuel : Nat) (current counted : Int), current ≤ e →
      walkAux days wm (e :: hol) current counted fuel =
        walkAux days wm hol current counted fuel := by
  intro fuel
  induction fuel with
  | zero => intro current counted _; simp [walkAux]
  | succ n ih =>
    intro current counted hce
    simp only [walkAux]
    by_cases h : counted < days
    · rw [if_pos h, if_pos h]
      rw [is_work_day_cons_ne (current - 1) e wm hol (by omega)]
      exact ih (current - 1) _ (by omega)
    · rw [if_neg h, if_neg h]

theorem is_work_day_empty_mask (d : Int) (hol : List Int) :
    is_work_day_numpy d (work_weekdays_to_weekmask []) hol = false := by
  simp only [is_work_day_numpy, work_weekdays_to_weekmask, List.foldl_nil]
  by_cases h : hol.contains d
  · rw [if_pos h]
  · rw [if_neg h]
    have : ∀ (i : Nat), (List.replicate 7 '0').getD i '0' = '0' := by
      intro i
      match i with
      | 0 | 1 | 2 | 3 | 4 | 5 | 6 => rfl
      | n + 7 => rfl
    rw [this]; rfl

theorem walkAux_snd_nowork (days : Int) (wm : List Char) (hol : List Int)
    (hnw : ∀ d, is_work_day_numpy d wm hol = false) :
    ∀ (fuel : Nat) (current counted : Int), counted < days →
      (walkAux days wm hol current counted fuel).2 = true := by
  intro fuel
  induction fuel with
  | zero => intro current counted _; simp [walkAux]
  | succ n ih =>
    intro current counted h
    simp only [walkAux]
    rw [if_pos h, hnw (current - 1)]
    simpa using ih (current - 1) counted h

/-!
## Lemmas about `add_business_days_numpy`
-/

theorem max_iterations_eq : max_iterations = 730 := rfl

theorem add_business_days_eq_match (end_date days : Int) (wd : List Nat) (gh th : List Int)
    (h : ¬days = 0) :
    add_business_days_numpy end_date days wd gh th =
      match walkAux days (work_weekdays_to_weekmask wd) (holidays_to_numpy_array gh th)
          end_date 0 max_iterations with
      | (_, true) => .error "작업일을 찾을 수 없습니다. 날짜 범위를 확인하세요."
      | (c, false) => .ok c := by
  unfold add_business_days_numpy
  rw [if_neg h]

theorem add_business_days_nonpos (end_date days : Int) (wd : List Nat) (gh th : List Int)
    (h : days ≤ 0) :
    add_business_days_numpy end_date days wd gh th = .ok end_date := by
  by_cases h0 : days = 0
  · unfold add_business_days_numpy; rw [if_pos h0]
  · rw [add_business_days_eq_match end_date days wd gh th h0]
    rw [max_iterations_eq, show (730 : Nat) = 729 + 1 from rfl,
      walkAux_done _ _ _ _ _ _ (by omega)]

theorem add_business_days_pos_char (end_date days : Int) (wd : List Nat) (gh th : List Int)
    {c : Int} (hd : 1 ≤ days)
    (h : add_business_days_numpy end_date days wd gh th = .ok c) :
    is_work_day_numpy c (work_weekdays_to_weekmask wd)
        (holidays_to_numpy_array gh th) = true ∧ c ≤ end_date - 1 := by
  rw [add_business_days_eq_match end_date days wd gh th (by omega)] at h
  rcases heq : walkAux days (work_weekdays_to_weekmask wd) (holidays_to_numpy_array gh th)
      end_date 0 max_iterations with ⟨c', b⟩
  rw [heq] at h
  cases b with
  | true => simp at h
  | false =>
    have hc : c' = c := by simpa using h
    subst hc
    exact ⟨walkAux_isWork_of_false _ _ _ _ _ _ _ (by omega) heq,
      walkAux_fst_le_sub_one _ _ _ (by omega) heq⟩

theorem add_business_days_ok_bounds (end_date days : Int) (wd : List Nat) (gh th : List Int)
    {c : Int} (h : add_business_days_numpy end_date days wd gh th = .ok c) :
    end_date - 730 ≤ c ∧ c ≤ end_date := by
  by_cases h0 : days = 0
  · unfold add_business_days_numpy at h
    rw [if_pos h0] at h
    have : end_date = c := by simpa using h
    omega
  · rw [add_business_days_eq_match end_date days wd gh th h0] at h
    rcases heq : walkAux days (work_weekdays_to_weekmask wd) (holidays_to_numpy_array gh th)
        end_date 0 max_iterations with ⟨c', b⟩
    rw [heq] at h
    cases b with
    | true => simp at h
    | false =>
      have hc : c' = c := by simpa using h
      subst hc
      have h1 := walkAux_fst_le days (work_weekdays_to_weekmask wd)
        (holidays_to_numpy_array gh th) max_iterations end_date 0
      have h2 := walkAux_fst_ge days (work_weekdays_to_weekmask wd)
        (holidays_to_numpy_array gh th) max_iterations end_date 0
      rw [heq] at h1 h2
      rw [max_iterations_eq] at h2
      simp only at h1 h2
      constructor
      · omega
      · exact h1

theorem add_business_days_empty_weekdays (end_date days : Int) (gh th : List Int)
    (hd : 1 ≤ days) :
    ∃ e, add_business_days_numpy end_date days [] gh th = .error e := by
  rw [add_business_days_eq_match end_date days [] gh th (by omega)]
  rcases heq : walkAux days (work_weekdays_to_weekmask [])
      (holidays_to_numpy_array gh th) end_date 0 max_iterations with ⟨c', b⟩
  have hb := walkAux_snd_nowork days (work_weekdays_to_weekmask [])
    (holidays_to_numpy_array gh th) (fun d => is_work_day_empty_mask d _)
    max_iterations end_date 0 (by omega)
  rw [heq] at hb
  simp only at hb
  subst hb
  exact ⟨_, rfl⟩

theorem add_business_days_cons_end_holiday (end_date days : Int) (wd : List Nat)
    (gh th : List Int) :
    add_business_days_numpy end_date days wd (end_date :: gh) th =
      add_business_days_numpy end_date days wd gh th := by
  by_cases h0 : days = 0
  · unfold add_business_days_numpy; rw [if_pos h0, if_pos h0]
  · rw [add_business_days_eq_match end_date days wd (end_date :: gh) th h0,
      add_business_days_eq_match end_date days wd gh th h0]
    have harr : holidays_to_numpy_array (end_date :: gh) th =
        end_date :: holidays_to_numpy_array gh th := by
      simp [holidays_to_numpy_array]
    rw [harr, walkAux_cons_holiday days _ end_date _ max_iterations end_date 0 le_rfl]

/-!
## Lemmas about `stepProcess`
-/

theorem string_data_append (s t : String) : (s ++ t).data = s.data ++ t.data := by
  cases s; cases t; rfl

theorem append_right_ne (n : String) {a b : String} (h : a ≠ b) : n ++ a ≠ n ++ b := by
  intro he
  apply h
  have hd := congrArg String.data he
  rw [string_data_append, string_data_append] at hd
  have hab := List.append_cancel_left hd
  cases a; cases b
  exact congrArg String.mk hab

theorem lookupW_head (k : String) (v : Int) (rest : List (String × Int)) :
    lookupW ((k, v) :: rest) k = some v := by
  simp only [lookupW]
  rw [List.find?_cons_of_pos _ (by simp)]
  rfl

theorem stepProcess_delivery (fd : Int) (ts : String → Option TeamSetting) (gh : List Int)
    (row : Row) (ref : Int) (p : ProcessDef) (h : p.name = "납기") :
    stepProcess fd ts gh row ref p = .ok (ref, [("납기일(Final_Date)", fd)]) := by
  unfold stepProcess
  rw [if_pos h]

theorem stepProcess_PND (fd : Int) (ts : String → Option TeamSetting) (gh : List Int)
    (row : Row) (ref : Int) (p : ProcessDef) (h : p.name = "PND") :
    stepProcess fd ts gh row ref p = .ok (fd - 1, [("PND", fd - 1)]) := by
  unfold stepProcess
  rw [h, if_neg (by decide), if_pos rfl]

theorem stepProcess_milestone_char (fd : Int) (ts : String → Option TeamSetting)
    (gh : List Int) (row : Row) (ref : Int) (p : ProcessDef)
    {ref' : Int} {ws : List (String × Int)}
    (hn : p.name ≠ "납기") (hp : p.name ≠ "PND") (ht : p.type = "Milestone")
    (h : stepProcess fd ts gh row ref p = .ok (ref', ws)) :
    ws = [(p.name ++ "일", ref')] ∧
      is_work_day_numpy ref' (effMask ts p) (effHols ts gh p) = true ∧ ref' ≤ ref - 2 := by
  unfold stepProcess at h
  rw [if_neg hn, if_neg hp, if_pos ht] at h
  rcases hadd : add_business_days_numpy (ref - 1) 1
      ((ts p.team_code).getD defaultTeamSetting).work_weekdays gh
      ((ts p.team_code).getD defaultTeamSetting).team_holidays with e | m <;> rw [hadd] at h
  · simp at h
  · have hm : m = ref' ∧ [(p.name ++ "일", m)] = ws := by simpa using h
    obtain ⟨hm1, hm2⟩ := hm
    subst hm1
    have hc := add_business_days_pos_char (ref - 1) 1 _ _ _ le_rfl hadd
    exact ⟨hm2.symm, hc.1, by omega⟩

theorem stepProcess_duration_ok_getDays (fd : Int) (ts : String → Option TeamSetting)
    (gh : List Int) (row : Row) (ref : Int) (p : ProcessDef)
    {res : Int × List (String × Int)}
    (hn : p.name ≠ "납기") (hp : p.name ≠ "PND") (ht : p.type = "Duration")
    (h : stepProcess fd ts gh row ref p = .ok res) :
    ∃ n, getDays row p.name = .ok n := by
  unfold stepProcess at h
  rw [if_neg hn, if_neg hp, if_neg (by rw [ht]; decide), if_pos ht] at h
  rcases hd : getDays row p.name with e | n <;> rw [hd] at h
  · simp at h
  · exact ⟨n, rfl⟩

theorem stepProcess_duration_char (fd : Int) (ts : String → Option TeamSetting)
    (gh : List Int) (row : Row) (ref : Int) (p : ProcessDef)
    {ref' : Int} {ws : List (String × Int)} {n : Int}
    (hn : p.name ≠ "납기") (hp : p.name ≠ "PND") (ht : p.type = "Duration")
    (hdays : getDays row p.name = .ok n)
    (h : stepProcess fd ts gh row ref p = .ok (ref', ws)) :
    ws = [(p.name ++ "_Start", ref'), (p.name ++ "_End", ref - 1)] ∧ ref' ≤ ref - 1 ∧
      (1 ≤ n → is_work_day_numpy ref' (effMask ts p) (effHols ts gh p) = true ∧
        ref' ≤ ref - 2) := by
  unfold stepProcess at h
  rw [if_neg hn, if_neg hp, if_neg (by rw [ht]; decide), if_pos ht, hdays] at h
  dsimp only at h
  rcases hadd : add_business_days_numpy (ref - 1) n
      ((ts p.team_code).getD defaultTeamSetting).work_weekdays gh
      ((ts p.team_code).getD defaultTeamSetting).team_holidays with e | s <;> rw [hadd] at h
  · simp at h
  · have hm : s = ref' ∧ [(p.name ++ "_Start", s), (p.name ++ "_End", ref - 1)] = ws := by
      simpa using h
    obtain ⟨hm1, hm2⟩ := hm
    subst hm1
    rcases le_or_lt n 0 with h0 | h1
    · have hnp := add_business_days_nonpos (ref - 1) n
        ((ts p.team_code).getD defaultTeamSetting).work_weekdays gh
        ((ts p.team_code).getD defaultTeamSetting).team_holidays h0
      rw [hadd] at hnp
      have hs : s = ref - 1 := by simpa using hnp
      exact ⟨hm2.symm, by omega, fun hn1 => absurd hn1 (by omega)⟩
    · have hc := add_business_days_pos_char (ref - 1) n _ _ _ (by omega) hadd
      exact ⟨hm2.symm, by omega, fun _ => ⟨hc.1, by omega⟩⟩

theorem stepProcess_ref_le (fd : Int) (ts : String → Option TeamSetting) (gh : List Int)
    (row : Row) (ref : Int) (p : ProcessDef) {ref' : Int} {ws : List (String × Int)}
    (hp : p.name ≠ "PND") (h : stepProcess fd ts gh row ref p = .ok (ref', ws)) :
    ref' ≤ ref := by
  by_cases hn : p.name = "납기"
  · rw [stepProcess_delivery fd ts gh row ref p hn] at h
    simp only [Except.ok.injEq, Prod.mk.injEq] at h
    omega
  · by_cases htM : p.type = "Milestone"
    · have hc := stepProcess_milestone_char fd ts gh row ref p hn hp htM h
      omega
    · by_cases htD : p.type = "Duration"
      · obtain ⟨n, hd⟩ := stepProcess_duration_ok_getDays fd ts gh row ref p hn hp htD h
        have hc := stepProcess_duration_char fd ts gh row ref p hn hp htD hd h
        omega
      · unfold stepProcess at h
        rw [if_neg hn, if_neg hp, if_neg htM, if_neg htD] at h
        simp only [Except.ok.injEq, Prod.mk.injEq] at h
        omega

/-!
## Lemmas about chunk boundaries and `runChunks`
-/

theorem startBoundary_milestone (p : ProcessDef) (v : Int) (ht : p.type = "Milestone") :
    startBoundary p [(p.name ++ "일", v)] = some v := by
  unfold startBoundary
  rw [if_neg (by rw [ht]; decide)]
  exact lookupW_head _ _ _

theorem endBoundary_milestone (p : ProcessDef) (v : Int) (ht : p.type = "Milestone") :
    endBoundary p [(p.name ++ "일", v)] = some v := by
  unfold endBoundary
  rw [if_neg (by rw [ht]; decide)]
  exact lookupW_head _ _ _

theorem startBoundary_duration (p : ProcessDef) (s e : Int) (ht : p.type = "Duration") :
    startBoundary p [(p.name ++ "_Start", s), (p.name ++ "_End", e)] = some s := by
  unfold startBoundary
  rw [if_pos ht]
  exact lookupW_head _ _ _

theorem endBoundary_duration (p : ProcessDef) (s e : Int) (ht : p.type = "Duration") :
    endBoundary p [(p.name ++ "_Start", s), (p.name ++ "_End", e)] = some e := by
  unfold endBoundary
  rw [if_pos ht]
  simp only [lookupW]
  rw [List.find?_cons_of_neg _ (by
    simp only [beq_iff_eq]
    exact append_right_ne p.name (by decide))]
  rw [List.find?_cons_of_pos _ (by simp)]
  rfl

theorem runChunks_map_fst (fd : Int) (ts : String → Option TeamSetting) (gh : List Int)
    (row : Row) :
    ∀ (ps : List ProcessDef) (ref : Int) (chunks),
      runChunks fd ts gh row ref ps = .ok chunks → chunks.map Prod.fst = ps := by
  intro ps
  induction ps with
  | nil =>
    intro ref chunks h
    simp only [runChunks, Except.ok.injEq] at h
    subst h; rfl
  | cons p ps ih =>
    intro ref chunks h
    simp only [runChunks] at h
    rcases hstep : stepProcess fd ts gh row ref p with e | rw0 <;> rw [hstep] at h
    · simp at h
    · obtain ⟨ref', ws⟩ := rw0
      dsimp only at h
      rcases hrest : runChunks fd ts gh row ref' ps with e | rest <;> rw [hrest] at h
      · simp at h
      · have hch : (p, ws) :: rest = chunks := by simpa using h
        subst hch
        simp [ih ref' rest hrest]

theorem runChunks_mem_step (fd : Int) (ts : String → Option TeamSetting) (gh : List Int)
    (row : Row) :
    ∀ (ps : List ProcessDef) (ref : Int) (chunks),
      runChunks fd ts gh row ref ps = .ok chunks →
      ∀ (p : ProcessDef) (ws), (p, ws) ∈ chunks →
        ∃ r r', stepProcess fd ts gh row r p = .ok (r', ws) := by
  intro ps
  induction ps with
  | nil =>
    intro ref chunks h p ws hmem
    simp only [runChunks, Except.ok.injEq] at h
    subst h; simp at hmem
  | cons q ps ih =>
    intro ref chunks h p ws hmem
    simp only [runChunks] at h
    rcases hstep : stepProcess fd ts gh row ref q with e | rw0 <;> rw [hstep] at h
    · simp at h
    · obtain ⟨ref', ws0⟩ := rw0
      dsimp only at h
      rcases hrest : runChunks fd ts gh row ref' ps with e | rest <;> rw [hrest] at h
      · simp at h
      · have hch : (q, ws0) :: rest = chunks := by simpa using h
        subst hch
        rcases List.mem_cons.mp hmem with heq | hmem'
        · have hq : q = p ∧ ws0 = ws := by
            constructor
            · exact (congrArg Prod.fst heq).symm
            · exact (congrArg Prod.snd heq).symm
          obtain ⟨hq1, hq2⟩ := hq
          subst hq1; subst hq2
          exact ⟨ref, ref', hstep⟩
        · exact ih ref' rest hrest p ws hmem'

theorem runChunks_endB_le (fd : Int) (ts : String → Option TeamSetting) (gh : List Int)
    (row : Row) :
    ∀ (ps : List ProcessDef) (ref : Int) (chunks),
      runChunks fd ts gh row ref ps = .ok chunks →
      ∀ (j : Nat) (p : ProcessDef) (ws), chunks.get? j = some (p, ws) →
        (∀ (k : Nat) (q : ProcessDef) (wsq), k < j → chunks.get? k = some (q, wsq) →
          q.name ≠ "PND") →
        p.name ≠ "납기" → p.name ≠ "PND" → (p.type = "Duration" ∨ p.type = "Milestone") →
        ∃ v, endBoundary p ws = some v ∧ v ≤ ref - 1 := by
  intro ps
  induction ps with
  | nil =>
    intro ref chunks h j p ws hj _ _ _ _
    simp only [runChunks, Except.ok.injEq] at h
    subst h; simp at hj
  | cons q ps ih =>
    intro ref chunks h j p ws hj hnopnd hn hp htype
    simp only [runChunks] at h
    rcases hstep : stepProcess fd ts gh row ref q with e | rw0 <;> rw [hstep] at h
    · simp at h
    · obtain ⟨ref1, ws0⟩ := rw0
      dsimp only at h
      rcases hrest : runChunks fd ts gh row ref1 ps with e | rest <;> rw [hrest] at h
      · simp at h
      · have hch : (q, ws0) :: rest = chunks := by simpa using h
        subst hch
        cases j with
        | zero =>
          have hqp : q = p ∧ ws0 = ws := by
            have := hj
            simp only [List.get?_cons_zero, Option.some.injEq] at this
            exact ⟨congrArg Prod.fst this, congrArg Prod.snd this⟩
          obtain ⟨hq1, hq2⟩ := hqp
          subst hq1; subst hq2
          rcases htype with htD | htM
          · obtain ⟨n, hd⟩ := stepProcess_duration_ok_getDays fd ts gh row ref q hn hp htD hstep
            have hc := stepProcess_duration_char fd ts gh row ref q hn hp htD hd hstep
            rw [hc.1]
            exact ⟨ref - 1, endBoundary_duration q ref1 (ref - 1) htD, by omega⟩
          · have hc := stepProcess_milestone_char fd ts gh row ref q hn hp htM hstep
            rw [hc.1]
            exact ⟨ref1, endBoundary_milestone q ref1 htM, by omega⟩
        | succ j' =>
          have hq_ne : q.name ≠ "PND" := hnopnd 0 q ws0 (Nat.succ_pos j') rfl
          have href : ref1 ≤ ref := stepProcess_ref_le fd ts gh row ref q hq_ne hstep
          have hj' : rest.get? j' = some (p, ws) := by simpa using hj
          have hnopnd' : ∀ (k : Nat) (q2 : ProcessDef) (wsq), k < j' →
              rest.get? k = some (q2, wsq) → q2.name ≠ "PND" := by
            intro k q2 wsq hk hget
            exact hnopnd (k + 1) q2 wsq (by omega) (by simpa using hget)
          obtain ⟨v, hv, hvle⟩ := ih ref1 rest hrest j' p ws hj' hnopnd' hn hp htype
          exact ⟨v, hv, by omega⟩

theorem runChunks_ordering (fd : Int) (ts : String → Option TeamSetting) (gh : List Int)
    (row : Row) :
    ∀ (ps : List ProcessDef) (ref : Int) (chunks),
      runChunks fd ts gh row ref ps = .ok chunks →
      ∀ (ib ia : Nat) (b : ProcessDef) (wsb : List (String × Int))
        (a : ProcessDef) (wsa : List (String × Int)), ib < ia →
        chunks.get? ib = some (b, wsb) → chunks.get? ia = some (a, wsa) →
        (∀ (k : Nat) (q : ProcessDef) (wsq), ib < k → k < ia →
          chunks.get? k = some (q, wsq) → q.name ≠ "PND") →
        b.name ≠ "납기" → b.name ≠ "PND" → (b.type = "Duration" ∨ b.type = "Milestone") →
        a.name ≠ "납기" → a.name ≠ "PND" → (a.type = "Duration" ∨ a.type = "Milestone") →
        ∃ va vb, endBoundary a wsa = some va ∧ startBoundary b wsb = some vb ∧ va < vb := by
  intro ps
  induction ps with
  | nil =>
    intro ref chunks h ib ia b wsb a wsa hlt hib hia _ _ _ _ _ _ _
    simp only [runChunks, Except.ok.injEq] at h
    subst h; simp at hib
  | cons q ps ih =>
    intro ref chunks h ib ia b wsb a wsa hlt hib hia hnopnd hbn hbp hbt han hap hat
    simp only [runChunks] at h
    rcases hstep : stepProcess fd ts gh row ref q with e | rw0 <;> rw [hstep] at h
    · simp at h
    · obtain ⟨ref1, ws0⟩ := rw0
      dsimp only at h
      rcases hrest : runChunks fd ts gh row ref1 ps with e | rest <;> rw [hrest] at h
      · simp at h
      · have hch : (q, ws0) :: rest = chunks := by simpa using h
        subst hch
        cases ib with
        | zero =>
          have hqb : q = b ∧ ws0 = wsb := by
            have := hib
            simp only [List.get?_cons_zero, Option.some.injEq] at this
            exact ⟨congrArg Prod.fst this, congrArg Prod.snd this⟩
          obtain ⟨hq1, hq2⟩ := hqb
          subst hq1; subst hq2
          obtain ⟨ja, hja⟩ : ∃ ja, ia = ja + 1 := ⟨ia - 1, by omega⟩
          subst hja
          have hja' : rest.get? ja = some (a, wsa) := by simpa using hia
          have hnopnd' : ∀ (k : Nat) (q2 : ProcessDef) (wsq), k < ja →
              rest.get? k = some (q2, wsq) → q2.name ≠ "PND" := by
            intro k q2 wsq hk hget
            exact hnopnd (k + 1) q2 wsq (by omega) (by omega) (by simpa using hget)
          obtain ⟨va, hva, hvale⟩ := runChunks_endB_le fd ts gh row ps ref1 rest hrest
            ja a wsa hja' hnopnd' han hap hat
          rcases hbt with htD | htM
          · obtain ⟨n, hd⟩ := stepProcess_duration_ok_getDays fd ts gh row ref q hbn hbp htD
              hstep
            have hc := stepProcess_duration_char fd ts gh row ref q hbn hbp htD hd hstep
            rw [hc.1]
            exact ⟨va, ref1, hva, startBoundary_duration q ref1 (ref - 1) htD, by omega⟩
          · have hc := stepProcess_milestone_char fd ts gh row ref q hbn hbp htM hstep
            rw [hc.1]
            exact ⟨va, ref1, hva, startBoundary_milestone q ref1 htM, by omega⟩
        | succ jb =>
          obtain ⟨ja, hja⟩ : ∃ ja, ia = ja + 1 := ⟨ia - 1, by omega⟩
          subst hja
          have hib' : rest.get? jb = some (b, wsb) := by simpa using hib
          have hia' : rest.get? ja = some (a, wsa) := by simpa using hia
          have hnopnd' : ∀ (k : Nat) (q2 : ProcessDef) (wsq), jb < k → k < ja →
              rest.get? k = some (q2, wsq) → q2.name ≠ "PND" := by
            intro k q2 wsq hk1 hk2 hget
            exact hnopnd (k + 1) q2 wsq (by omega) (by omega) (by simpa using hget)
          exact ih ref1 rest hrest jb ja b wsb a wsa (by omega) hib' hia' hnopnd'
            hbn hbp (by tauto) han hap hat

theorem calculate_backward_schedule_get (processes : List ProcessDef)
    (ts : String → Option TeamSetting) (gh : List Int) :
    ∀ (df : List Row) (outs : List (List (String × Int))),
      calculate_backward_schedule df processes ts gh = .ok outs →
      ∀ (i : Nat) (r : Row), df.get? i = some r →
        ∃ ws, scheduleRow processes ts gh r = .ok ws ∧ outs.get? i = some ws := by
  intro df
  induction df with
  | nil =>
    intro outs h i r hi
    simp at hi
  | cons row rest ih =>
    intro outs h i r hi
    simp only [calculate_backward_schedule] at h
    rcases hrow : scheduleRow processes ts gh row with e | ws <;> rw [hrow] at h
    · simp at h
    · rcases hrest : calculate_backward_schedule rest processes ts gh with e | rests <;>
        rw [hrest] at h
      · simp at h
      · have hout : ws :: rests = outs := by simpa using h
        subst hout
        cases i with
        | zero =>
          have hr : row = r := by simpa using hi
          subst hr
          exact ⟨ws, hrow, rfl⟩
        | succ i' =>
          exact ih rests hrest i' r (by simpa using hi)

theorem heapWrite_get_ne (j k : Nat) (hk : k ≠ j) :
    ∀ (heap : List Df) (w : Nat × String × Int), (heapWrite heap j w).get? k = heap.get? k := by
  intro heap w
  unfold heapWrite
  rcases hj : heap.get? j with _ | df
  · rfl
  · exact List.get?_set_ne _ _ (fun h => hk h.symm)

theorem foldl_heapWrite_get_ne (j k : Nat) (hk : k ≠ j) :
    ∀ (ws : List (Nat × String × Int)) (heap : List Df),
      (ws.foldl (fun h w => heapWrite h j w) heap).get? k = heap.get? k := by
  intro ws
  induction ws with
  | nil => intro heap; rfl
  | cons w ws ih =>
    intro heap
    simp only [List.foldl_cons]
    rw [ih (heapWrite heap j w), heapWrite_get_ne j k hk heap w]

/-!
## Sortedness of the traversal order
-/

theorem traversal_sorted_desc (processes : List ProcessDef) :
    List.Pairwise (fun x y => y.order ≤ x.order) ((sortByOrder processes).reverse) := by
  rw [List.pairwise_reverse]
  exact List.sorted_insertionSort (fun p q => p.order ≤ q.order) processes

theorem traversal_pairwise_ne (processes : List ProcessDef)
    (hdist : processes.Pairwise (fun p q => p.order ≠ q.order)) :
    List.Pairwise (fun p q => p.order ≠ q.order) ((sortByOrder processes).reverse) := by
  rw [List.pairwise_reverse]
  have hperm := List.perm_insertionSort (fun p q => p.order ≤ q.order) processes
  have h1 : List.Pairwise (fun p q => p.order ≠ q.order) (sortByOrder processes) :=
    (List.Perm.pairwise_iff (fun h => h.symm) hperm).mpr hdist
  exact h1.imp (fun h => h.symm)

theorem traversal_mem (processes : List ProcessDef) (q : ProcessDef)
    (h : q ∈ (sortByOrder processes).reverse) : q ∈ processes := by
  rw [List.mem_reverse] at h
  exact (List.Perm.mem_iff (List.perm_insertionSort _ _)).mp h

/-!
## Claim theorems
-/

/-- C1 (amended): for every block and pipeline, if the engine run succeeds
then every non-sentinel Milestone's computed date is a working day under
its effective team calendar, and every Duration process whose resolved
days value is at least 1 has its computed start date on a working day; the
computed end date is exactly the incoming reference date minus one
calendar day and is not adjusted to a working day. -/
theorem C1_working_day_amended (processes : List ProcessDef)
    (ts : String → Option TeamSetting) (gh : List Int) (row : Row)
    (chunks : List (ProcessDef × List (String × Int)))
    (hrun : runChunks row.final_date ts gh row row.final_date
      ((sortByOrder processes).reverse) = .ok chunks)
    (p : ProcessDef) (ws : List (String × Int)) (hmem : (p, ws) ∈ chunks)
    (hn : p.name ≠ "납기") (hp : p.name ≠ "PND") :
    (p.type = "Milestone" → ∃ v, ws = [(p.name ++ "일", v)] ∧
      is_work_day_numpy v (effMask ts p) (effHols ts gh p) = true) ∧
    (p.type = "Duration" → ∀ n, getDays row p.name = .ok n → 1 ≤ n →
      ∃ s e, ws = [(p.name ++ "_Start", s), (p.name ++ "_End", e)] ∧
        is_work_day_numpy s (effMask ts p) (effHols ts gh p) = true) := by
  obtain ⟨r, r', hstep⟩ := runChunks_mem_step row.final_date ts gh row
    ((sortByOrder processes).reverse) row.final_date chunks hrun p ws hmem
  constructor
  · intro htM
    have hc := stepProcess_milestone_char row.final_date ts gh row r p hn hp htM hstep
    exact ⟨r', hc.1, hc.2.1⟩
  · intro htD n hd h1
    have hc := stepProcess_duration_char row.final_date ts gh row r p hn hp htD hd hstep
    exact ⟨r', r - 1, hc.1, (hc.2.2 h1).1⟩

/-- C1 witness: in scenario A, the Final milestone's chunk is a single
working-day date. -/
theorem C1_witness :
    ∃ v, [("Final일", mkDate 2026 4 27)] = [(scenarioAFinal.name ++ "일", v)] ∧
      is_work_day_numpy v (effMask scenarioATeams scenarioAFinal)
        (effHols scenarioATeams [] scenarioAFinal) = true :=
  (C1_working_day_amended scenarioAPipeline scenarioATeams [] scenarioARow
    scenarioAChunks rfl scenarioAFinal [("Final일", mkDate 2026 4 27)]
    (by decide) (by decide) (by decide)).1 rfl

/-- C1 counterexample: with deadline Monday 2026-05-04, process B
(Duration, 0 days) gets start = end = 2026-05-03, a Sunday, which is not a
working day under its (default Monday-Saturday) calendar — so neither the
computed end date nor, for a non-positive duration, the start date is a
working day, refuting the claim as stated. -/
theorem C1_counterexample :
    scheduleRow nwPipeline (fun _ => none) [] nwRow =
      .ok [("납기일(Final_Date)", mkDate 2026 5 4), ("B_Start", mkDate 2026 5 3),
        ("B_End", mkDate 2026 5 3), ("A_Start", mkDate 2026 4 29),
        ("A_End", mkDate 2026 5 2)] ∧
    is_work_day_numpy (mkDate 2026 5 3) (effMask (fun _ => none) nwB)
      (effHols (fun _ => none) [] nwB) = false :=
  ⟨rfl, by decide⟩

/-- C2 (amended): in scenario A (deadline Thursday 2026-04-30, pipeline
Cutting/Final/PND/납기, calendar `cutting` = Monday-Saturday, no
holidays), the engine computes PND = 2026-04-29 and the Final milestone
date = 2026-04-27: the walk from the anchor 2026-04-28 moves to 2026-04-27
(a Monday) before its first working-day test, so the anchor itself is
never counted. -/
theorem C2_scenarioA_amended :
    scheduleRow scenarioAPipeline scenarioATeams [] scenarioARow =
      .ok [("납기일(Final_Date)", mkDate 2026 4 30), ("PND", mkDate 2026 4 29),
        ("Final일", mkDate 2026 4 27), ("Cutting_Start", mkDate 2026 4 23),
        ("Cutting_End", mkDate 2026 4 26)] := rfl

/-- C2 counterexample: the claim asserts Final = 2026-04-28, but the
engine computes Final = 2026-04-27 on exactly the claimed input. -/
theorem C2_counterexample :
    ∃ ws, scheduleRow scenarioAPipeline scenarioATeams [] scenarioARow = .ok ws ∧
      lookupW ws "Final일" = some (mkDate 2026 4 27) ∧
      (mkDate 2026 4 27 : Int) ≠ mkDate 2026 4 28 :=
  ⟨[("납기일(Final_Date)", mkDate 2026 4 30), ("PND", mkDate 2026 4 29),
    ("Final일", mkDate 2026 4 27), ("Cutting_Start", mkDate 2026 4 23),
    ("Cutting_End", mkDate 2026 4 26)], rfl, rfl, by decide⟩

/-- C3 (amended): for every block and pipeline with pairwise-distinct
`Order` values, and every pair of non-sentinel Duration/Milestone
processes `a`, `b` with `order a < order b` such that no PND sentinel has
an order strictly between them, the computed end-boundary of `a` is
strictly before the computed start-boundary of `b`.  (A PND between them
resets the reference date to deadline − 1 and breaks the ordering, see the
counterexample.) -/
theorem C3_ordering_amended (processes : List ProcessDef)
    (ts : String → Option TeamSetting) (gh : List Int) (row : Row)
    (chunks : List (ProcessDef × List (String × Int)))
    (hdist : processes.Pairwise (fun p q => p.order ≠ q.order))
    (hrun : runChunks row.final_date ts gh row row.final_date
      ((sortByOrder processes).reverse) = .ok chunks)
    (a b : ProcessDef) (wsa wsb : List (String × Int))
    (horder : a.order < b.order)
    (hmema : (a, wsa) ∈ chunks) (hmemb : (b, wsb) ∈ chunks)
    (hnopnd : ∀ q ∈ processes, q.name = "PND" →
      ¬(a.order < q.order ∧ q.order < b.order))
    (han : a.name ≠ "납기") (hap : a.name ≠ "PND")
    (hat : a.type = "Duration" ∨ a.type = "Milestone")
    (hbn : b.name ≠ "납기") (hbp : b.name ≠ "PND")
    (hbt : b.type = "Duration" ∨ b.type = "Milestone") :
    ∃ va vb, endBoundary a wsa = some va ∧ startBoundary b wsb = some vb ∧ va < vb := by
  have hfst : chunks.map Prod.fst = (sortByOrder processes).reverse :=
    runChunks_map_fst row.final_date ts gh row ((sortByOrder processes).reverse)
      row.final_date chunks hrun
  obtain ⟨ia, hia⟩ := List.get?_of_mem hmema
  obtain ⟨ib, hib⟩ := List.get?_of_mem hmemb
  have htia : ((sortByOrder processes).reverse).get? ia = some a := by
    rw [← hfst, List.get?_map, hia]; rfl
  have htib : ((sortByOrder processes).reverse).get? ib = some b := by
    rw [← hfst, List.get?_map, hib]; rfl
  obtain ⟨hialen, hiaget⟩ := List.get?_eq_some.mp htia
  obtain ⟨hiblen, hibget⟩ := List.get?_eq_some.mp htib
  have hsort := traversal_sorted_desc processes
  have hne := traversal_pairwise_ne processes hdist
  rw [List.pairwise_iff_get] at hsort hne
  have hlt : ib < ia := by
    rcases Nat.lt_trichotomy ib ia with h | h | h
    · exact h
    · exfalso
      rw [h, htia] at htib
      have hab : a = b := by simpa using htib
      rw [hab] at horder
      omega
    · exfalso
      have := hsort ⟨ia, hialen⟩ ⟨ib, hiblen⟩ (Fin.mk_lt_mk.mpr h)
      rw [hiaget, hibget] at this
      omega
  have hnopnd_pos : ∀ (k : Nat) (q : ProcessDef) (wsq), ib < k → k < ia →
      chunks.get? k = some (q, wsq) → q.name ≠ "PND" := by
    intro k q wsq hk1 hk2 hget hq
    have htk : ((sortByOrder processes).reverse).get? k = some q := by
      rw [← hfst, List.get?_map, hget]; rfl
    obtain ⟨hklen, hkget⟩ := List.get?_eq_some.mp htk
    have hmemq : q ∈ processes := traversal_mem processes q (List.get?_mem htk)
    have h1 : q.order ≤ b.order := by
      have := hsort ⟨ib, hiblen⟩ ⟨k, hklen⟩ (Fin.mk_lt_mk.mpr hk1)
      rw [hibget, hkget] at this
      exact this
    have h2 : a.order ≤ q.order := by
      have := hsort ⟨k, hklen⟩ ⟨ia, hialen⟩ (Fin.mk_lt_mk.mpr hk2)
      rw [hkget, hiaget] at this
      exact this
    have h1' : b.order ≠ q.order := by
      have := hne ⟨ib, hiblen⟩ ⟨k, hklen⟩ (Fin.mk_lt_mk.mpr hk1)
      rw [hibget, hkget] at this
      exact this
    have h2' : q.order ≠ a.order := by
      have := hne ⟨k, hklen⟩ ⟨ia, hialen⟩ (Fin.mk_lt_mk.mpr hk2)
      rw [hkget, hiaget] at this
      exact this
    exact hnopnd q hmemq hq ⟨by omega, by omega⟩
  exact runChunks_ordering row.final_date ts gh row ((sortByOrder processes).reverse)
    row.final_date chunks hrun ib ia b wsb a wsa hlt hib hia hnopnd_pos
    hbn hbp hbt han hap hat

/-- C3 witness: in scenario A, Cutting (order 1) ends strictly before
Final (order 2) starts. -/
theorem C3_witness :
    ∃ va vb,
      endBoundary scenarioACutting
        [("Cutting_Start", mkDate 2026 4 23), ("Cutting_End", mkDate 2026 4 26)] = some va ∧
      startBoundary scenarioAFinal [("Final일", mkDate 2026 4 27)] = some vb ∧ va < vb :=
  C3_ordering_amended scenarioAPipeline scenarioATeams [] scenarioARow scenarioAChunks
    (by decide) rfl scenarioACutting scenarioAFinal
    [("Cutting_Start", mkDate 2026 4 23), ("Cutting_End", mkDate 2026 4 26)]
    [("Final일", mkDate 2026 4 27)]
    (by decide) (by decide) (by decide) (by decide)
    (by decide) (by decide) (Or.inl rfl) (by decide) (by decide) (Or.inr rfl)

/-- C3 counterexample: with the PND sentinel between A (order 1) and B
(order 3), the engine computes A_End = 2026-04-28 and B_Start =
2026-04-25: the end-boundary of A is not strictly before the
start-boundary of B although neither A nor B is a sentinel. -/
theorem C3_counterexample :
    runChunks pmRow.final_date (fun _ => none) [] pmRow pmRow.final_date
      ((sortByOrder pmPipeline).reverse) = .ok pmChunks ∧
    endBoundary pmA [("A_Start", mkDate 2026 4 27), ("A_End", mkDate 2026 4 28)] =
      some (mkDate 2026 4 28) ∧
    startBoundary pmB [("B_Start", mkDate 2026 4 25), ("B_End", mkDate 2026 4 29)] =
      some (mkDate 2026 4 25) ∧
    ¬(mkDate 2026 4 28 < mkDate 2026 4 25) :=
  ⟨rfl, rfl, rfl, by decide⟩

/-- C4: the PND sentinel always records `deadline − 1` (one calendar day,
no business-day or holiday logic), whatever the calendar configuration,
and the reference date handed to the next earlier process (the first
component of the step result, which `runChunks` threads on) is that same
`pnd_date`. -/
theorem C4_pnd_fixed_offset (fd : Int) (ts : String → Option TeamSetting) (gh : List Int)
    (row : Row) :
    (∀ (ps : List ProcessDef) (ref : Int) (chunks) (p : ProcessDef)
      (ws : List (String × Int)),
      runChunks fd ts gh row ref ps = .ok chunks → (p, ws) ∈ chunks → p.name = "PND" →
        ws = [("PND", fd - 1)]) ∧
    (∀ (ref : Int) (p : ProcessDef), p.name = "PND" →
      stepProcess fd ts gh row ref p = .ok (fd - 1, [("PND", fd - 1)])) := by
  constructor
  · intro ps ref chunks p ws hrun hmem hp
    obtain ⟨r, r', hstep⟩ := runChunks_mem_step fd ts gh row ps ref chunks hrun p ws hmem
    rw [stepProcess_PND fd ts gh row r p hp] at hstep
    have := (Except.ok.inj hstep)
    exact (congrArg Prod.snd this).symm
  · intro ref p hp
    exact stepProcess_PND fd ts gh row ref p hp

/-- C4 witness: in scenario A the PND chunk is exactly
`deadline − 1 = 2026-04-29`. -/
theorem C4_witness :
    [("PND", mkDate 2026 4 29)] = [("PND", mkDate 2026 4 30 - 1)] :=
  (C4_pnd_fixed_offset (mkDate 2026 4 30) scenarioATeams [] scenarioARow).1
    ((sortByOrder scenarioAPipeline).reverse) (mkDate 2026 4 30) scenarioAChunks
    scenarioAPND [("PND", mkDate 2026 4 29)] rfl (by decide) rfl

/-- C5 (amended): adding the naive end date (`ref − 1`) to the global
holiday set leaves the whole scheduling step — in particular the computed
start date — unchanged: the backward walk decrements before its first
working-day test and never tests the end date itself. -/
theorem C5_holiday_on_end_no_shift (fd : Int) (ts : String → Option TeamSetting)
    (gh : List Int) (row : Row) (ref : Int) (p : ProcessDef) :
    stepProcess fd ts ((ref - 1) :: gh) row ref p = stepProcess fd ts gh row ref p := by
  by_cases hn : p.name = "납기"
  · rw [stepProcess_delivery fd ts ((ref - 1) :: gh) row ref p hn,
      stepProcess_delivery fd ts gh row ref p hn]
  · by_cases hp : p.name = "PND"
    · rw [stepProcess_PND fd ts ((ref - 1) :: gh) row ref p hp,
        stepProcess_PND fd ts gh row ref p hp]
    · unfold stepProcess
      simp only [if_neg hn, if_neg hp]
      by_cases htM : p.type = "Milestone"
      · simp only [if_pos htM]
        rw [add_business_days_cons_end_holiday]
      · simp only [if_neg htM]
        by_cases htD : p.type = "Duration"
        · simp only [if_pos htD]
          rcases hd : getDays row p.name with e | n <;> simp only [hd]
          rw [add_business_days_cons_end_holiday]
        · simp only [if_neg htD]

/-- C5 counterexample: deadline Monday 2026-05-04; the naive end date of A
is Sunday 2026-05-03.  Making 2026-05-03 a global holiday leaves A_Start =
2026-04-30 unchanged, instead of shifting it one calendar day earlier as
the claim asserts. -/
theorem C5_counterexample :
    scheduleRow sdPipeline (fun _ => none) [mkDate 2026 5 3] sdRow =
      .ok [("납기일(Final_Date)", mkDate 2026 5 4), ("A_Start", mkDate 2026 4 30),
        ("A_End", mkDate 2026 5 3)] ∧
    scheduleRow sdPipeline (fun _ => none) [] sdRow =
      .ok [("납기일(Final_Date)", mkDate 2026 5 4), ("A_Start", mkDate 2026 4 30),
        ("A_End", mkDate 2026 5 3)] ∧
    (mkDate 2026 4 30 : Int) ≠ mkDate 2026 4 30 - 1 :=
  ⟨rfl, rfl, by decide⟩

/-- C6: the backward business-day walk is a total function whose lookback
is bounded by 730 calendar days: every normal result lies within
`[end_date − 730, end_date]`, and when the requested working days cannot
be found in that window — for example a team calendar with an empty
`work_weekdays` list and at least one requested day — it returns a
distinguished error instead of a date. -/
theorem C6_terminates_bounded (end_date days : Int) (wd : List Nat) (gh th : List Int) :
    (wd = [] → 1 ≤ days → ∃ e, add_business_days_numpy end_date days wd gh th = .error e) ∧
    (∀ d, add_business_days_numpy end_date days wd gh th = .ok d →
      end_date - 730 ≤ d ∧ d ≤ end_date) := by
  constructor
  · intro hwd hd
    subst hwd
    exact add_business_days_empty_weekdays end_date days gh th hd
  · intro d h
    exact add_business_days_ok_bounds end_date days wd gh th h

/-- C6 witness: an empty weekday list with one requested day errors, and a
successful walk from Thursday 2026-04-30 stays inside the 730-day
window. -/
theorem C6_witness :
    (∃ e, add_business_days_numpy (mkDate 2026 4 30) 1 [] [] [] = .error e) ∧
    (mkDate 2026 4 30 - 730 ≤ mkDate 2026 4 29 ∧ mkDate 2026 4 29 ≤ mkDate 2026 4 30) :=
  ⟨(C6_terminates_bounded (mkDate 2026 4 30) 1 [] [] []).1 rfl (by decide),
   (C6_terminates_bounded (mkDate 2026 4 30) 1 [0, 1, 2, 3, 4, 5] [] []).2
     (mkDate 2026 4 29) rfl⟩

/-- C7 (amended): a missing or NaN days cell silently defaults to 5 and a
present value is coerced with `int(...)`; but when that coercion fails the
exception propagates out of the scheduler (no default is applied), unlike
the claim's assertion that a failed coercion is treated as missing. -/
theorem C7_duration_default_amended (row : Row) (name : String) :
    (row.cells (name ++ "_Days") = .absent → getDays row name = .ok 5) ∧
    (row.cells (name ++ "_Days") = .nanCell → getDays row name = .ok 5) ∧
    (∀ n, row.cells (name ++ "_Days") = .intCell n → getDays row name = .ok n) ∧
    (row.cells (name ++ "_Days") = .badCell → ∃ e, getDays row name = .error e) := by
  refine ⟨fun h => ?_, fun h => ?_, fun n h => ?_, fun h => ?_⟩ <;>
    unfold getDays <;> rw [h]
  exact ⟨_, rfl⟩

/-- C7 witness: the four cell kinds on a concrete row. -/
theorem C7_witness :
    getDays mixedRow "D" = .ok 5 ∧ getDays mixedRow "B" = .ok 5 ∧
    getDays mixedRow "C" = .ok 7 ∧ ∃ e, getDays mixedRow "A" = .error e :=
  ⟨(C7_duration_default_amended mixedRow "D").1 rfl,
   (C7_duration_default_amended mixedRow "B").2.1 rfl,
   (C7_duration_default_amended mixedRow "C").2.2.1 7 rfl,
   (C7_duration_default_amended mixedRow "A").2.2.2 rfl⟩

/-- C7 counterexample: a days cell on which `int(...)` fails makes the
whole scheduling run raise, instead of being treated as missing with the
default of 5 as the claim asserts. -/
theorem C7_counterexample :
    scheduleRow sdPipeline (fun _ => none) [] sdRowBadDays =
      .error "invalid literal for int()" := rfl

/-- C8: the scheduler is deterministic (identical inputs give identical
outputs — it is a pure function, as is the business-day walk), and on
successful runs the output computed for a block row depends only on that
row: the same row in two different batches, at any positions, gets the
same output. -/
theorem C8_determinism_independence (df1 df2 : List Row) (processes : List ProcessDef)
    (ts : String → Option TeamSetting) (gh : List Int) :
    (calculate_backward_schedule df1 processes ts gh =
      calculate_backward_schedule df1 processes ts gh) ∧
    (∀ (outs1 outs2 : List (List (String × Int))) (i j : Nat) (r : Row),
      calculate_backward_schedule df1 processes ts gh = .ok outs1 →
      calculate_backward_schedule df2 processes ts gh = .ok outs2 →
      df1.get? i = some r → df2.get? j = some r →
      outs1.get? i = outs2.get? j) := by
  refine ⟨rfl, ?_⟩
  intro outs1 outs2 i j r h1 h2 hi hj
  obtain ⟨ws1, hw1, ho1⟩ := calculate_backward_schedule_get processes ts gh df1 outs1 h1 i r hi
  obtain ⟨ws2, hw2, ho2⟩ := calculate_backward_schedule_get processes ts gh df2 outs2 h2 j r hj
  rw [ho1, ho2]
  rw [hw1] at hw2
  have : ws1 = ws2 := by simpa using hw2
  rw [this]

/-- C8 witness: the same row scheduled at position 1 of a two-row batch
and at position 0 of a singleton batch yields the same output. -/
theorem C8_witness :
    ([[("납기일(Final_Date)", mkDate 2026 4 30), ("A_Start", mkDate 2026 4 23),
       ("A_End", mkDate 2026 4 29)],
      [("납기일(Final_Date)", mkDate 2026 5 4), ("A_Start", mkDate 2026 4 30),
       ("A_End", mkDate 2026 5 3)]].get? 1 =
     [[("납기일(Final_Date)", mkDate 2026 5 4), ("A_Start", mkDate 2026 4 30),
       ("A_End", mkDate 2026 5 3)]].get? 0) :=
  (C8_determinism_independence [sdRowDefaultDays, sdRow] [sdRow] sdPipeline
    (fun _ => none) []).2 _ _ 1 0 sdRow rfl rfl rfl rfl

/-- C9: a Duration process whose days cell coerces to an integer n ≤ 0
raises no error and skips the default of 5: the walk returns its input
unchanged (no working-day check), so start = end = reference − 1 and the
reference handed onward (the first component) is that same day. -/
theorem C9_nonpositive_duration (fd : Int) (ts : String → Option TeamSetting)
    (gh : List Int) (row : Row) (ref : Int) (p : ProcessDef) (n : Int)
    (hn : p.name ≠ "납기") (hp : p.name ≠ "PND") (ht : p.type = "Duration")
    (hd : getDays row p.name = .ok n) (hnp : n ≤ 0) :
    stepProcess fd ts gh row ref p =
      .ok (ref - 1, [(p.name ++ "_Start", ref - 1), (p.name ++ "_End", ref - 1)]) := by
  unfold stepProcess
  rw [if_neg hn, if_neg hp, if_neg (by rw [ht]; decide), if_pos ht, hd]
  dsimp only
  rw [add_business_days_nonpos (ref - 1) n _ gh _ hnp]

/-- C9 witness: a zero-day process at reference 2026-04-30. -/
theorem C9_witness :
    stepProcess (mkDate 2026 4 30) (fun _ => none) [] c9Row (mkDate 2026 4 30) c9Proc =
      .ok (mkDate 2026 4 30 - 1, [("Z" ++ "_Start", mkDate 2026 4 30 - 1),
        ("Z" ++ "_End", mkDate 2026 4 30 - 1)]) :=
  C9_nonpositive_duration (mkDate 2026 4 30) (fun _ => none) [] c9Row (mkDate 2026 4 30)
    c9Proc 0 (by decide) (by decide) rfl rfl (by decide)

/-- C10: the heap-level run never mutates the caller's dataframe object:
`df = df.copy()` allocates a fresh object and every `df.at` write targets
it, so every pre-existing heap entry — in particular the input blocks
dataframe — is unchanged after the call. -/
theorem C10_no_input_mutation (heap : List Df) (i : Nat) (processes : List ProcessDef)
    (ts : String → Option TeamSetting) (gh : List Int) (k : Nat) (hk : k < heap.length) :
    ((calculate_backward_schedule_heap heap i processes ts gh).1).get? k = heap.get? k := by
  unfold calculate_backward_schedule_heap
  dsimp only
  rw [foldl_heapWrite_get_ne heap.length k (by omega) _ (heap ++ [heap.getD i []])]
  exact List.get?_append hk

/-- C10 witness: a singleton heap is preserved at handle 0. -/
theorem C10_witness :
    ((calculate_backward_schedule_heap c10Heap 0 sdPipeline (fun _ => none) []).1).get? 0 =
      c10Heap.get? 0 :=
  C10_no_input_mutation c10Heap 0 sdPipeline (fun _ => none) [] 0 (by decide)
